import Mathlib

/-!
Verification of the h5sh interactive HDF5 shell.

This file gives a shallow embedding of the path-resolution engine
(`h5sh/filestate.py`, `FileState.abspath`) and of the command handlers
(`h5sh/commands.py`) of the h5sh repository, together with proofs about
the claims of its specification.

The HDF5 file itself is an external collaborator.  It is modelled as a
finite tree of groups and datasets; string lookups into the file follow
HDF5 path-name semantics: `/` separates components, consecutive slashes
count as one, a `.` component denotes the current group and is skipped,
and `..` is *not* special (it is an ordinary link name, which normal
files do not contain).  In particular a trailing slash after the last
component is accepted and resolves to that component's object, which is
what makes the group paths produced by `abspath` (which always end in
`/`) usable with `in`, `[]`, `del` and `copy` throughout the handlers.
-/

namespace H5sh

/-! ### Characters and strings

Helper operations mirroring the Python string functions used by the
source (`str.split('/')`, `str.startswith`, `str.endswith`,
`os.path.join`, `os.path.basename`, `str.rstrip('/')`).  They are
defined by recursion on the character list of the string so that they
can be reasoned about by induction. -/

/-- Auxiliary for `splitSlash`: Python's `s.split('/')` on a char list,
with `acc` the characters of the current (unfinished) field. -/
def splitSlashL : List Char → List Char → List String
  | [], acc => [String.mk acc]
  | c :: rest, acc =>
    if c = '/' then String.mk acc :: splitSlashL rest []
    else splitSlashL rest (acc ++ [c])

/-- Python `s.split('/')`. -/
def splitSlash (s : String) : List String := splitSlashL s.data []

/-- Python `s.startswith('/')`. -/
def startsWithSlash (s : String) : Bool := s.data.head? = some '/'

/-- Python `s.endswith('/')`. -/
def endsWithSlash (s : String) : Bool := s.data.getLast? = some '/'

/-- Python `s.startswith('//')`. -/
def startsTwoSlash (s : String) : Bool :=
  match s.data with
  | '/' :: '/' :: _ => true
  | _ => false

/-- Python `s.startswith('///')`. -/
def startsThreeSlash (s : String) : Bool :=
  match s.data with
  | '/' :: '/' :: '/' :: _ => true
  | _ => false

/-- Python `'/'.join(l)`. -/
def joinSlash : List String → String
  | [] => ""
  | [t] => t
  | t :: rest => t ++ "/" ++ joinSlash rest

/-- Python `' '.join(l)`. -/
def joinSpace : List String → String
  | [] => ""
  | [t] => t
  | t :: rest => t ++ " " ++ joinSpace rest

/-- Python `os.path.join(a, b)` (posix, two arguments). -/
def posixJoin (a b : String) : String :=
  if startsWithSlash b then b
  else if a = "" ∨ endsWithSlash a then a ++ b
  else a ++ "/" ++ b

/-- Python `os.path.basename(s)` (posix): everything after the last slash. -/
def basenameP (s : String) : String := (splitSlash s).getLast?.getD ""

/-- Python `s.rstrip('/')`. -/
def rstripSlash (s : String) : String :=
  String.mk ((s.data.reverse.dropWhile (· = '/')).reverse)

/-! ### Python `os.path.normpath` (posix)

`normpath` drops empty and `.` components, resolves `..` by popping the
previous component (clamping at root for absolute paths), and keeps the
POSIX double-slash special case for paths starting with exactly two
slashes. -/

/-- One step of `normpath`'s component loop, with `initSlashes` the number
of initial slashes (`0` for relative paths) and `acc` the components kept
so far.  Mirrors the loop body of `posixpath.normpath`. -/
def normStep (initSlashes : Nat) (acc : List String) (comp : String) : List String :=
  if comp = "" ∨ comp = "." then acc
  else if comp ≠ ".." ∨ (initSlashes = 0 ∧ acc = []) ∨ (acc ≠ [] ∧ acc.getLast? = some "..") then
    acc ++ [comp]
  else if acc ≠ [] then acc.dropLast
  else acc

/-- Leading-slash marker string of `normpath`'s result. -/
def slashStr : Nat → String
  | 0 => ""
  | 1 => "/"
  | _ => "//"

/-- The absolute branch of `normpath`: the kept leading slashes followed
by the surviving components joined with `/`. -/
def normAbs (k : Nat) (p : String) : String :=
  slashStr k ++ joinSlash ((splitSlash p).foldl (normStep k) [])

/-- Python `posixpath.normpath`.  For an absolute input the
`path or '.'` fallback of the Python source can never fire (the result
starts with a slash), so the emptiness check is only needed on the
relative branch. -/
def normpath (p : String) : String :=
  if p = "" then "."
  else if startsWithSlash p then
    normAbs (if startsTwoSlash p ∧ ¬ startsThreeSlash p then 2 else 1) p
  else
    let joined := joinSlash ((splitSlash p).foldl (normStep 0) [])
    if joined = "" then "." else joined

/-! ### The HDF5 store

A node is a group (with named children, in file order) or a dataset
(with an element-type name, a shape, and abstract contents).  The root
of an HDF5 file is always a group, so a store is a child list. -/

/-- A node of the HDF5 tree: either a group or a dataset. -/
inductive Node where
  | group (children : List (String × Node))
  | dataset (dtypeName : String) (shape : List Nat) (data : Nat)

/-- A store is the child list of the (implicit) root group. -/
abbrev Store := List (String × Node)

/-- The node kind, the closed variant probed by `isinstance(·, h5py.Group)`
and `isinstance(·, h5py.Dataset)` in the source. -/
inductive NKind where
  | grp
  | dst
deriving DecidableEq

/-- Kind tag of a node. -/
def Node.tag : Node → NKind
  | .group _ => .grp
  | .dataset .. => .dst

/-- HDF5 path components of a string: split on `/`, drop empty components
(consecutive, leading or trailing slashes) and `.` components.  `..` is
kept: HDF5 gives it no special meaning. -/
def pcomps (s : String) : List String :=
  (splitSlash s).filter (fun t => ¬ (t = "" ∨ t = "."))

/-- Walk a node along a component path. -/
def Node.findAt : Node → List String → Option Node
  | n, [] => some n
  | .group cs, name :: rest =>
    match cs.find? (fun p => p.1 = name) with
    | some p => p.2.findAt rest
    | none => none
  | .dataset .., _ :: _ => none

/-- Object lookup from the root: models `state.f[path]` succeeding, and
`path in state.f` via `isSome`. -/
def findC (cs : Store) (path : List String) : Option Node :=
  (Node.group cs).findAt path

/-- Kind of the object a component path resolves to, if any. -/
def kindC (cs : Store) (path : List String) : Option NKind :=
  (findC cs path).map Node.tag

/-- Replace every child entry named `name` by `v`, keeping order.  Helper
for the structural updates below. -/
def replaceChild (cs : Store) (name : String) (v : Node) : Store :=
  cs.map (fun p => if p.1 = name then (name, v) else p)

/-- Deletion of a link, models `del state.f[path]` (`H5Ldelete`): the
parent components must resolve through groups and the final link must
exist; deleting the root (`[]`) fails, as `del f['/']` does.  `none`
models the h5py call raising. -/
def deleteC : Store → List String → Option Store
  | _, [] => none
  | cs, name :: rest =>
    match rest with
    | [] =>
      if (cs.find? (fun p => p.1 = name)).isSome then
        some (cs.filter (fun p => ¬ p.1 = name))
      else none
    | _ :: _ =>
      match cs.find? (fun p => p.1 = name) with
      | some (_, .group cs2) =>
        (deleteC cs2 rest).map (fun cs2' => replaceChild cs name (.group cs2'))
      | _ => none

/-- Insertion of a node at a path, creating intermediate groups, models
`state.f.copy`'s destination write and `create_group` (h5py's link
creation property list creates missing intermediate groups).  Fails
(`none`, the h5py call raising) if the final link already exists, if an
intermediate is a dataset, or at the root path. -/
def insertC : Store → List String → Node → Option Store
  | _, [], _ => none
  | cs, name :: rest, v =>
    match rest with
    | [] =>
      if (cs.find? (fun p => p.1 = name)).isSome then none
      else some (cs ++ [(name, v)])
    | _ :: _ =>
      match cs.find? (fun p => p.1 = name) with
      | some (_, .group cs2) =>
        (insertC cs2 rest v).map (fun cs2' => replaceChild cs name (.group cs2'))
      | some (_, .dataset ..) => none
      | none =>
        (insertC [] rest v).map (fun cs2' => cs ++ [(name, .group cs2')])

/-! ### Session state and path resolution -/

/-- The session: the open store, its write mode (`f.mode == 'r+'`), the
current group and the previous group (for `cd -`).  The two group fields
hold the canonical component path of the h5py group object they model;
`nameOf` recovers the object's `.name`. -/
structure State where
  store : Store
  writable : Bool
  cwd : List String
  lastCwd : List String

/-- The `.name` of the h5py group object at a component path: `/` for the
root, `/a/b` otherwise. -/
def nameOf : List String → String
  | [] => "/"
  | cs => "/" ++ joinSlash cs

/-- The string computed by `FileState.abspath` before the group check:
the input itself when absolute, otherwise
`os.path.abspath(os.path.join(self.group.name, path))` (the join is
already absolute here, so `os.path.abspath` is `normpath`). -/
def preAbs (cwd : List String) (path : String) : String :=
  if startsWithSlash path then path
  else normpath (posixJoin (nameOf cwd) path)

/-- Python method `FileState.abspath` (`h5sh/filestate.py`): resolve to an absolute
path string, then append a `/` when the result is an existing group that
does not already end in one. -/
def abspathC (store : Store) (cwd : List String) (path : String) : String :=
  let a := preAbs cwd path
  match findC store (pcomps a) with
  | some (.group _) => if endsWithSlash a then a else a ++ "/"
  | _ => a

/-- Method form of `abspath` on the session. -/
def State.abspath (st : State) (path : String) : String :=
  abspathC st.store st.cwd path

/-! ### Command handlers (`h5sh/commands.py`)

Every `print` of the source is modelled by one `Diag` constructor
carrying the interpolated values; Python exceptions that escape a
handler (there is no try/except around the dispatch in `__main__.py`)
are modelled by `PyErr`.  `cat`'s `-f` flag only toggles numpy's global
print threshold, a display concern that has no observable effect here. -/

/-- A diagnostic or output line printed by a handler; each constructor
corresponds to one `print` in `commands.py` and carries exactly the
values interpolated there. -/
inductive Diag where
  | attrsOut (path : String)
  | attrsNoSuchObject (path : String)
  | catData (data : Nat)
  | catNotADataset (arg : String)
  | catNoSuchDataset (arg : String)
  | cdNotAGroup (arg : String)
  | cdNoSuchGroup (arg : String)
  | readOnly (verb : String)
  | cpMissingOperand (args : List String)
  | mvMissingOperand (arg : String)
  | targetNotGroup (verb : String) (arg : String)
  | noSuchGroupOrDataset (verb : String) (arg : String)
  | lsNotAGroup (arg : String)
  | lsNoSuchGroup (arg : String)
  | lsListing (rows : List (String × String × String))
  | mkdirExists (arg : String)
  | pwdOut (name : String)
  | helpListing
  | helpMsg (cmd : String)
  | helpInvalid (cmd : String)
deriving DecidableEq

/-- A Python exception escaping a handler. -/
inductive PyErr where
  | keyError
  | indexError
  | h5Error
deriving DecidableEq

/-- Result of running one handler: the new session state, the printed
lines in order, and the exception that escaped, if any. -/
structure Res where
  st : State
  out : List Diag
  exc : Option PyErr

/-- The `COMMANDS` table of `commands.py` (also the key set of
`_HELP_MESSAGES`). -/
def commandNames : List String :=
  ["attrs", "cat", "cd", "cp", "exit", "help", "ls", "mkdir", "mv", "pwd", "rm"]

/-- Handler `attrs`: with no argument it shows its own help; otherwise it
resolves the first argument and prints the attribute dict or a
diagnostic naming the resolved path. -/
def attrsRun (args : List String) (st : State) : Res :=
  match args with
  | [] => ⟨st, [.helpMsg "attrs"], none⟩
  | arg :: _ =>
    let path := st.abspath arg
    if (findC st.store (pcomps path)).isSome then ⟨st, [.attrsOut path], none⟩
    else ⟨st, [.attrsNoSuchObject path], none⟩

/-- Handler `cat`: the last argument is the target; `-f` in the earlier
arguments only toggles numpy's print threshold (display-global, restored
afterwards) and is not modelled. -/
def catRun (args : List String) (st : State) : Res :=
  match args with
  | [] => ⟨st, [.helpMsg "cat"], none⟩
  | _ :: _ =>
    let lastarg := args.getLast?.getD ""
    let path := st.abspath lastarg
    match findC st.store (pcomps path) with
    | some (.dataset _ _ d) => ⟨st, [.catData d], none⟩
    | some (.group _) => ⟨st, [.catNotADataset lastarg], none⟩
    | none => ⟨st, [.catNoSuchDataset lastarg], none⟩

/-- Handler `cd`: the handler joins its arguments with spaces; `-` swaps
the current and previous groups; otherwise the resolved path must be an
existing group. -/
def cdRun (args : List String) (st : State) : Res :=
  let arg := joinSpace args
  if arg = "-" then
    ⟨{ st with cwd := st.lastCwd, lastCwd := st.cwd }, [], none⟩
  else
    let path := st.abspath arg
    match findC st.store (pcomps path) with
    | some (.group _) => ⟨{ st with lastCwd := st.cwd, cwd := pcomps path }, [], none⟩
    | some (.dataset ..) => ⟨st, [.cdNotAGroup arg], none⟩
    | none => ⟨st, [.cdNoSuchGroup arg], none⟩

/-- Code-point lexicographic comparison of character lists: Python's
string `<=`. -/
def lexLe : List Char → List Char → Bool
  | [], _ => true
  | _ :: _, [] => false
  | c :: cr, d :: dr =>
    if c.toNat < d.toNat then true
    else if d.toNat < c.toNat then false
    else lexLe cr dr

/-- Python's string comparison, used by `sorted` on the name column. -/
def strLe (s t : String) : Bool := lexLe s.data t.data

/-- The markup `ls` wraps around a group's display name
(`directory(s)` in the source). -/
def wrapDir (s : String) : String :=
  "<b><ansibrightblue>" ++ s ++ "</ansibrightblue></b>"

/-- Python `str(shape)` for a shape tuple: `()`, `(3,)`, `(10, 20)`. -/
def shapeStr : List Nat → String
  | [] => "()"
  | [n] => "(" ++ toString n ++ ",)"
  | ns => "(" ++ joinCommaSp ns ++ ")"
where
  joinCommaSp : List Nat → String
  | [] => ""
  | [n] => toString n
  | n :: rest => toString n ++ ", " ++ joinCommaSp rest

/-- The `(dtype, size, name)` row `ls` builds for one child node; group
names get the `directory` markup. -/
def lsRow (child : String × Node) : String × String × String :=
  match child.2 with
  | .group _ => ("group", "1", wrapDir child.1)
  | .dataset dt shape _ => (dt, shapeStr shape, child.1)

/-- Handler `ls`: joins the arguments, resolves the path, and lists the
synthetic `.` and `..` rows plus one row per child, sorted by the third
tuple component (`key=lambda x: x[2]`; Python's `sorted` is a stable
sort, modelled here by the stable `List.insertionSort`).  The source
indexes `state.f[path]` *before* its membership test, so a nonexistent
path raises `KeyError` and the `No such group` branch below is
unreachable. -/
def lsRun (args : List String) (st : State) : Res :=
  let arg := joinSpace args
  let path := st.abspath arg
  match findC st.store (pcomps path) with
  | none => ⟨st, [], some .keyError⟩
  | some (.dataset ..) => ⟨st, [.lsNotAGroup arg], none⟩
  | some (.group cs) =>
    if (findC st.store (pcomps path)).isSome then
      let vals := ("group", "1", wrapDir ".") :: ("group", "1", wrapDir "..") :: cs.map lsRow
      ⟨st, [.lsListing (vals.insertionSort (fun x y => strLe x.2.2 y.2.2 = true))], none⟩
    else ⟨st, [.lsNoSuchGroup arg], none⟩

/-- The per-argument loop of `mkdir`: existing paths get a diagnostic and
the loop continues; otherwise the group is created (an h5py error while
creating, e.g. through a dataset, escapes). -/
def mkdirLoop (cwd : List String) : List String → Store → Store × List Diag × Option PyErr
  | [], s => (s, [], none)
  | arg :: rest, s =>
    let path := abspathC s cwd arg
    if (findC s (pcomps path)).isSome then
      let r := mkdirLoop cwd rest s
      (r.1, .mkdirExists arg :: r.2.1, r.2.2)
    else
      match insertC s (pcomps path) (.group []) with
      | some s2 => mkdirLoop cwd rest s2
      | none => (s, [], some .h5Error)

/-- Handler `mkdir`: write-mode guard, then the per-argument loop. -/
def mkdirRun (args : List String) (st : State) : Res :=
  if st.writable then
    let r := mkdirLoop st.cwd args st.store
    ⟨{ st with store := r.1 }, r.2.1, r.2.2⟩
  else ⟨st, [.readOnly "mkdir"], none⟩

/-- The per-argument loop of `rm`: missing paths get a diagnostic and the
loop continues; existing paths are deleted (deleting `/` raises). -/
def rmLoop (cwd : List String) : List String → Store → Store × List Diag × Option PyErr
  | [], s => (s, [], none)
  | arg :: rest, s =>
    let path := abspathC s cwd arg
    if (findC s (pcomps path)).isSome then
      match deleteC s (pcomps path) with
      | some s2 => rmLoop cwd rest s2
      | none => (s, [], some .h5Error)
    else
      let r := rmLoop cwd rest s
      (r.1, .noSuchGroupOrDataset "rm" arg :: r.2.1, r.2.2)

/-- Handler `rm`: write-mode guard, then the per-argument loop. -/
def rmRun (args : List String) (st : State) : Res :=
  if st.writable then
    let r := rmLoop st.cwd args st.store
    ⟨{ st with store := r.1 }, r.2.1, r.2.2⟩
  else ⟨st, [.readOnly "rm"], none⟩

/-- Outcome of one iteration of the shared `cp`/`mv` source loop:
the source was missing (diagnostic printed, loop continues), the store
was mutated (loop continues), or an h5py call raised (loop aborts). -/
inductive StepOut where
  | missing
  | ok (s' : Store)
  | fail (s' : Store) (e : PyErr)

/-- The `final_dest` computation of the `cp`/`mv` loop body: when the
(re-resolved) destination is an existing group, append the basename of
the slash-stripped source; otherwise use the destination itself. -/
def finalDest (s : Store) (dest source : String) : String :=
  match findC s (pcomps dest) with
  | some (.group _) => dest ++ basenameP (rstripSlash source)
  | _ => dest

/-- The body of the `cp`/`mv` loop for one source argument.  Python's
`map(state.abspath, args[:-1])` is lazy, so the source is resolved
against the current (already mutated) store, and the `dest`-is-a-group
test for `final_dest` is re-evaluated against the current store as
well.  The destination is deleted first when present; the source
subtree is then copied; `mv` (`delSource = true`) additionally deletes
the source. -/
def copyMoveStep (delSource : Bool) (dest : String) (cwd : List String) (arg : String)
    (s : Store) : StepOut :=
  if (findC s (pcomps (abspathC s cwd arg))).isSome then
    match (if (findC s (pcomps (finalDest s dest (abspathC s cwd arg)))).isSome then
            deleteC s (pcomps (finalDest s dest (abspathC s cwd arg)))
          else some s) with
    | none => .fail s .h5Error
    | some s1 =>
      match findC s1 (pcomps (abspathC s cwd arg)) with
      | none => .fail s1 .keyError
      | some v =>
        match insertC s1 (pcomps (finalDest s dest (abspathC s cwd arg))) v with
        | none => .fail s1 .h5Error
        | some s2 =>
          if delSource then
            match deleteC s2 (pcomps (abspathC s cwd arg)) with
            | some s3 => .ok s3
            | none => .fail s2 .h5Error
          else .ok s2
  else .missing

/-- The shared source loop of `cp` and `mv` over `args[:-1]`.  A missing
source names `args[0]` in its diagnostic (not the failing argument) and
continues with the next source; an escaping h5py exception aborts the
loop. -/
def copyMoveLoop (delSource : Bool) (verb firstArg dest : String) (cwd : List String) :
    List String → Store → Store × List Diag × Option PyErr
  | [], s => (s, [], none)
  | arg :: rest, s =>
    match copyMoveStep delSource dest cwd arg s with
    | .missing =>
      let r := copyMoveLoop delSource verb firstArg dest cwd rest s
      (r.1, .noSuchGroupOrDataset verb firstArg :: r.2.1, r.2.2)
    | .ok s' => copyMoveLoop delSource verb firstArg dest cwd rest s'
    | .fail s' e => (s', [], some e)

/-- The `dest`-must-be-a-group pre-check of `cp`/`mv`:
`(dest in f and isinstance(f[dest], Dataset)) or dest not in f`. -/
def destNotGroup (s : Store) (dest : String) : Bool :=
  match findC s (pcomps dest) with
  | some (.dataset ..) => true
  | none => true
  | some (.group _) => false

/-- Handler `cp`: write-mode guard; fewer than two arguments prints the
whole argument list in the diagnostic; with more than two arguments the
destination must resolve to an existing group, else the call aborts;
then the copy loop. -/
def cpRun (args : List String) (st : State) : Res :=
  if st.writable then
    if args.length < 2 then ⟨st, [.cpMissingOperand args], none⟩
    else
      let dest := st.abspath (args.getLast?.getD "")
      if destNotGroup st.store dest && decide (2 < args.length) then
        ⟨st, [.targetNotGroup "cp" (args.getLast?.getD "")], none⟩
      else
        let r := copyMoveLoop false "cp" (args.head?.getD "") dest st.cwd args.dropLast st.store
        ⟨{ st with store := r.1 }, r.2.1, r.2.2⟩
  else ⟨st, [.readOnly "cp"], none⟩

/-- Handler `mv`: like `cp`, but the too-few-arguments diagnostic
interpolates `args[0]`, which raises `IndexError` when no argument was
given, and each successful copy is followed by deletion of the source. -/
def mvRun (args : List String) (st : State) : Res :=
  if st.writable then
    if args.length < 2 then
      match args with
      | [] => ⟨st, [], some .indexError⟩
      | a :: _ => ⟨st, [.mvMissingOperand a], none⟩
    else
      let dest := st.abspath (args.getLast?.getD "")
      if destNotGroup st.store dest && decide (2 < args.length) then
        ⟨st, [.targetNotGroup "mv" (args.getLast?.getD "")], none⟩
      else
        let r := copyMoveLoop true "mv" (args.head?.getD "") dest st.cwd args.dropLast st.store
        ⟨{ st with store := r.1 }, r.2.1, r.2.2⟩
  else ⟨st, [.readOnly "mv"], none⟩

/-- Handler `pwd`: prints `state.group.name`. -/
def pwdRun (_args : List String) (st : State) : Res :=
  ⟨st, [.pwdOut (nameOf st.cwd)], none⟩

/-- Handler `help`: no argument lists all commands; a known verb prints
its message; an unknown verb prints the invalid-command diagnostic and
then raises `KeyError` on the unconditional `_HELP_MESSAGES[cmd]`
lookup. -/
def helpRun (args : List String) (st : State) : Res :=
  match args with
  | [] => ⟨st, [.helpListing], none⟩
  | c :: _ =>
    if c ∈ commandNames then ⟨st, [.helpMsg c], none⟩
    else ⟨st, [.helpInvalid c], some .keyError⟩

/-- A parsed command line: the verb together with its arguments. -/
inductive Cmd where
  | attrs (args : List String)
  | cat (args : List String)
  | cd (args : List String)
  | cp (args : List String)
  | help (args : List String)
  | ls (args : List String)
  | mkdir (args : List String)
  | mv (args : List String)
  | pwd (args : List String)
  | rm (args : List String)

/-- Dispatch of one command to its handler, as done by the interpreter
loop in `__main__.py`. -/
def runCmd : Cmd → State → Res
  | .attrs args, st => attrsRun args st
  | .cat args, st => catRun args st
  | .cd args, st => cdRun args st
  | .cp args, st => cpRun args st
  | .help args, st => helpRun args st
  | .ls args, st => lsRun args st
  | .mkdir args, st => mkdirRun args st
  | .mv args, st => mvRun args st
  | .pwd args, st => pwdRun args st
  | .rm args, st => rmRun args st

/-- Run a command sequence; an escaping exception aborts the interpreter
loop (nothing catches it in `__main__.py`), so later commands do not
run. -/
def runSeq : List Cmd → State → State × Option PyErr
  | [], st => (st, none)
  | c :: rest, st =>
    let r := runCmd c st
    match r.exc with
    | some e => (r.st, some e)
    | none => runSeq rest r.st

/-! ### Lemmas about the string helpers -/

theorem data_append (a b : String) : (a ++ b).data = a.data ++ b.data := rfl

theorem splitSlashL_append_slash (l : List Char) (acc : List Char) :
    splitSlashL (l ++ ['/']) acc = splitSlashL l acc ++ [""] := by
  induction l generalizing acc with
  | nil => rfl
  | cons c rest ih =>
    simp only [List.cons_append, splitSlashL]
    by_cases hc : c = '/'
    · simp [hc, ih]
    · simp [hc, ih]

theorem pcomps_append_slash (s : String) : pcomps (s ++ "/") = pcomps s := by
  unfold pcomps splitSlash
  rw [data_append]
  show ((splitSlashL (s.data ++ ['/']) []).filter _) = _
  rw [splitSlashL_append_slash, List.filter_append]
  simp

theorem startsWithSlash_append (s t : String) (h : startsWithSlash s = true) :
    startsWithSlash (s ++ t) = true := by
  unfold startsWithSlash at *
  rw [data_append]
  cases hd : s.data with
  | nil => rw [hd] at h; simp at h
  | cons c rest => rw [hd] at h; simp at h; simp [hd, h]

theorem endsWithSlash_append_slash (s : String) : endsWithSlash (s ++ "/") = true := by
  unfold endsWithSlash
  rw [data_append]
  have hd : ("/" : String).data = ['/'] := rfl
  rw [hd]
  simp [List.getLast?_concat]

theorem string_ne_of_data_ne {s t : String} (h : s.data ≠ t.data) : s ≠ t := by
  intro he; exact h (congrArg String.data he)

theorem startsWithSlash_ne_empty {s : String} (h : startsWithSlash s = true) : s ≠ "" := by
  apply string_ne_of_data_ne
  unfold startsWithSlash at h
  intro hd
  rw [hd] at h
  simp at h

theorem nameOf_startsWithSlash (cs : List String) : startsWithSlash (nameOf cs) = true := by
  cases cs with
  | nil => rfl
  | cons a rest =>
    show startsWithSlash ("/" ++ joinSlash (a :: rest)) = true
    exact startsWithSlash_append "/" _ rfl

theorem posixJoin_startsWithSlash (a b : String) (ha : startsWithSlash a = true) :
    startsWithSlash (posixJoin a b) = true := by
  unfold posixJoin
  by_cases hb : startsWithSlash b = true
  · simp [hb]
  · simp only [Bool.not_eq_true] at hb
    rw [hb]
    simp only [Bool.false_eq_true, if_false]
    by_cases he : a = "" ∨ endsWithSlash a = true
    · rw [if_pos he]
      exact startsWithSlash_append a b ha
    · rw [if_neg he]
      exact startsWithSlash_append _ _ (startsWithSlash_append a "/" ha)

theorem normpath_startsWithSlash (p : String) (h : startsWithSlash p = true) :
    startsWithSlash (normpath p) = true := by
  unfold normpath
  rw [if_neg (startsWithSlash_ne_empty h), if_pos h]
  by_cases h2 : startsTwoSlash p = true ∧ ¬ startsThreeSlash p = true
  · rw [if_pos h2]
    unfold normAbs
    exact startsWithSlash_append "//" _ rfl
  · rw [if_neg h2]
    unfold normAbs
    exact startsWithSlash_append "/" _ rfl

theorem preAbs_startsWithSlash (cwd : List String) (p : String) :
    startsWithSlash (preAbs cwd p) = true := by
  unfold preAbs
  by_cases h : startsWithSlash p = true
  · simp [h]
  · simp only [Bool.not_eq_true] at h
    rw [h]
    simp only [Bool.false_eq_true, if_false]
    exact normpath_startsWithSlash _
      (posixJoin_startsWithSlash _ _ (nameOf_startsWithSlash cwd))

theorem preAbs_of_startsWithSlash (cwd : List String) (q : String)
    (h : startsWithSlash q = true) : preAbs cwd q = q := by
  unfold preAbs
  rw [if_pos h]

theorem data_ne_nil_of_ne_empty {s : String} (h : s ≠ "") : s.data ≠ [] := by
  intro hd
  apply h
  cases s with
  | mk l => cases hd; rfl

theorem splitSlashL_slashFree (l : List Char) (acc : List Char) (ha : '/' ∉ acc) :
    ∀ t ∈ splitSlashL l acc, '/' ∉ t.data := by
  induction l generalizing acc with
  | nil =>
    intro t ht
    simp [splitSlashL] at ht
    subst ht
    exact ha
  | cons c rest ih =>
    intro t ht
    simp only [splitSlashL] at ht
    by_cases hc : c = '/'
    · rw [if_pos hc] at ht
      rcases List.mem_cons.mp ht with h1 | h2
      · subst h1; exact ha
      · exact ih [] (by simp) t h2
    · rw [if_neg hc] at ht
      refine ih (acc ++ [c]) ?_ t ht
      intro hmem
      rcases List.mem_append.mp hmem with h1 | h2
      · exact ha h1
      · simp at h2; exact hc h2.symm

theorem splitSlash_slashFree (s : String) : ∀ t ∈ splitSlash s, '/' ∉ t.data :=
  splitSlashL_slashFree s.data [] (by simp)

theorem foldl_normStep_good (k : Nat) (parts : List String) :
    ∀ acc : List String, (∀ t ∈ acc, t ≠ "" ∧ '/' ∉ t.data) →
      (∀ c ∈ parts, '/' ∉ c.data) →
      ∀ t ∈ parts.foldl (normStep k) acc, t ≠ "" ∧ '/' ∉ t.data := by
  induction parts with
  | nil => intro acc hacc _ t ht; exact hacc t ht
  | cons c rest ih =>
    intro acc hacc hparts t ht
    rw [List.foldl_cons] at ht
    refine ih (normStep k acc c) ?_ (fun c2 hc2 => hparts c2 (List.mem_cons_of_mem _ hc2)) t ht
    intro u hu
    unfold normStep at hu
    by_cases h1 : c = "" ∨ c = "."
    · rw [if_pos h1] at hu; exact hacc u hu
    · rw [if_neg h1] at hu
      by_cases h2 : c ≠ ".." ∨ (k = 0 ∧ acc = []) ∨ (acc ≠ [] ∧ acc.getLast? = some "..")
      · rw [if_pos h2] at hu
        rcases List.mem_append.mp hu with h3 | h4
        · exact hacc u h3
        · simp at h4
          rw [h4]
          constructor
          · intro hcx; exact h1 (Or.inl hcx)
          · exact hparts _ (List.mem_cons_self _ _)
      · rw [if_neg h2] at hu
        by_cases h3 : acc ≠ []
        · rw [if_pos h3] at hu
          exact hacc u ((List.dropLast_sublist acc).subset hu)
        · rw [if_neg h3] at hu; exact hacc u hu

theorem joinSlash_ne_empty (l : List String) (hne : l ≠ []) (h : ∀ t ∈ l, t ≠ "") :
    joinSlash l ≠ "" := by
  match l with
  | [t] => exact h t (by simp)
  | t :: u :: rest =>
    show t ++ "/" ++ joinSlash (u :: rest) ≠ ""
    apply string_ne_of_data_ne
    rw [data_append, data_append]
    simp

theorem joinSlash_not_endsWithSlash (l : List String) (hne : l ≠ [])
    (h : ∀ t ∈ l, t ≠ "" ∧ '/' ∉ t.data) : endsWithSlash (joinSlash l) = false := by
  match l with
  | [t] =>
    show endsWithSlash t = false
    unfold endsWithSlash
    rw [decide_eq_false_iff_not]
    intro hlast
    exact (h t (by simp)).2 (List.mem_of_getLast?_eq_some hlast)
  | t :: u :: rest =>
    show endsWithSlash (t ++ "/" ++ joinSlash (u :: rest)) = false
    have hj : joinSlash (u :: rest) ≠ "" :=
      joinSlash_ne_empty _ (by simp) (fun v hv => (h v (List.mem_cons_of_mem _ hv)).1)
    have ihr : endsWithSlash (joinSlash (u :: rest)) = false :=
      joinSlash_not_endsWithSlash (u :: rest) (by simp)
        (fun v hv => h v (List.mem_cons_of_mem _ hv))
    unfold endsWithSlash at ihr ⊢
    rw [data_append, List.getLast?_append_of_ne_nil _ (data_ne_nil_of_ne_empty hj)]
    exact ihr

theorem string_eq_of_data {s t : String} (h : s.data = t.data) : s = t := by
  cases s; cases t; cases h; rfl

theorem string_append_empty (s : String) : s ++ "" = s :=
  string_eq_of_data (by rw [data_append]; exact List.append_nil s.data)

theorem normAbs_of_endsWithSlash (k : Nat) (p : String)
    (he : endsWithSlash (normAbs k p) = true) : normAbs k p = slashStr k := by
  unfold normAbs at he ⊢
  by_cases hc : (splitSlash p).foldl (normStep k) [] = []
  · rw [hc]
    show slashStr k ++ joinSlash [] = slashStr k
    exact string_append_empty _
  · exfalso
    have hgood : ∀ t ∈ (splitSlash p).foldl (normStep k) [], t ≠ "" ∧ '/' ∉ t.data :=
      foldl_normStep_good k (splitSlash p) [] (by simp) (splitSlash_slashFree p)
    have hjne : joinSlash ((splitSlash p).foldl (normStep k) []) ≠ "" :=
      joinSlash_ne_empty _ hc (fun t ht => (hgood t ht).1)
    have hend : endsWithSlash (joinSlash ((splitSlash p).foldl (normStep k) [])) = false :=
      joinSlash_not_endsWithSlash _ hc hgood
    unfold endsWithSlash at he hend
    rw [data_append, List.getLast?_append_of_ne_nil _ (data_ne_nil_of_ne_empty hjne)] at he
    rw [he] at hend
    simp at hend

theorem normpath_absolute_of_endsWithSlash (p : String) (h : startsWithSlash p = true)
    (he : endsWithSlash (normpath p) = true) : normpath p = "/" ∨ normpath p = "//" := by
  unfold normpath at he ⊢
  rw [if_neg (startsWithSlash_ne_empty h), if_pos h] at he ⊢
  by_cases h2 : startsTwoSlash p = true ∧ ¬ startsThreeSlash p = true
  · rw [if_pos h2] at he ⊢
    right
    rw [normAbs_of_endsWithSlash _ _ he]
    rfl
  · rw [if_neg h2] at he ⊢
    left
    rw [normAbs_of_endsWithSlash _ _ he]
    rfl

theorem kindC_nil (s : Store) : kindC s [] = some NKind.grp := rfl

/-! ### Characterization of `abspath` -/

theorem abspath_eq_kind (s : Store) (cwd : List String) (p : String) :
    abspathC s cwd p =
      if kindC s (pcomps (preAbs cwd p)) = some NKind.grp then
        (if endsWithSlash (preAbs cwd p) = true then preAbs cwd p else preAbs cwd p ++ "/")
      else preAbs cwd p := by
  unfold abspathC kindC
  cases h : findC s (pcomps (preAbs cwd p)) with
  | none => simp [h]
  | some n =>
    cases n with
    | group cs => simp [h, Node.tag]
    | dataset d sh x => simp [h, Node.tag]

theorem pcomps_abspath (s : Store) (cwd : List String) (p : String) :
    pcomps (abspathC s cwd p) = pcomps (preAbs cwd p) := by
  rw [abspath_eq_kind]
  by_cases hk : kindC s (pcomps (preAbs cwd p)) = some NKind.grp
  · rw [if_pos hk]
    by_cases he : endsWithSlash (preAbs cwd p) = true
    · rw [if_pos he]
    · rw [if_neg he, pcomps_append_slash]
  · rw [if_neg hk]

theorem abspath_startsWithSlash (s : Store) (cwd : List String) (p : String) :
    startsWithSlash (abspathC s cwd p) = true := by
  rw [abspath_eq_kind]
  by_cases hk : kindC s (pcomps (preAbs cwd p)) = some NKind.grp
  · rw [if_pos hk]
    by_cases he : endsWithSlash (preAbs cwd p) = true
    · rw [if_pos he]; exact preAbs_startsWithSlash cwd p
    · rw [if_neg he]; exact startsWithSlash_append _ _ (preAbs_startsWithSlash cwd p)
  · rw [if_neg hk]; exact preAbs_startsWithSlash cwd p

theorem abspath_store_congr (s1 s2 : Store) (cwd : List String) (p : String)
    (h : kindC s1 (pcomps (preAbs cwd p)) = kindC s2 (pcomps (preAbs cwd p))) :
    abspathC s1 cwd p = abspathC s2 cwd p := by
  rw [abspath_eq_kind, abspath_eq_kind, h]

/-- C3.  Path resolution is deterministic (it is a pure function of the
session and the input string) and idempotent: feeding the resolved
string back into `abspath` returns it unchanged, so resolving an
already-canonical location is the identity. -/
theorem abspath_idempotent (st : State) (p : String) :
    st.abspath (st.abspath p) = st.abspath p := by
  unfold State.abspath
  by_cases hk : kindC st.store (pcomps (preAbs st.cwd p)) = some NKind.grp
  · by_cases he : endsWithSlash (preAbs st.cwd p) = true
    · have h1 : abspathC st.store st.cwd p = preAbs st.cwd p := by
        rw [abspath_eq_kind, if_pos hk, if_pos he]
      rw [h1, abspath_eq_kind,
        preAbs_of_startsWithSlash _ _ (preAbs_startsWithSlash st.cwd p),
        if_pos hk, if_pos he]
    · have h1 : abspathC st.store st.cwd p = preAbs st.cwd p ++ "/" := by
        rw [abspath_eq_kind, if_pos hk, if_neg he]
      have hs : startsWithSlash (preAbs st.cwd p ++ "/") = true :=
        startsWithSlash_append _ _ (preAbs_startsWithSlash st.cwd p)
      rw [h1, abspath_eq_kind, preAbs_of_startsWithSlash _ _ hs, pcomps_append_slash,
        if_pos hk, if_pos (endsWithSlash_append_slash _)]
  · have h1 : abspathC st.store st.cwd p = preAbs st.cwd p := by
      rw [abspath_eq_kind, if_neg hk]
    rw [h1, abspath_eq_kind,
      preAbs_of_startsWithSlash _ _ (preAbs_startsWithSlash st.cwd p), if_neg hk]

/-! ### Example store used in concrete theorems

The tree `/a/b` (a `float64` dataset of shape `(3,)`), `/a/c` (an empty
group) and `/g` (an empty group), opened writable, with the session at
the root. -/

def demoStore : Store :=
  [("a", .group [("b", .dataset "float64" [3] 7), ("c", .group [])]),
   ("g", .group [])]

def demoState : State :=
  { store := demoStore, writable := true, cwd := [], lastCwd := [] }

/-- C10.  An input that starts with `/` is returned verbatim by
resolution, except that one `/` is appended when the string resolves to
an existing group and does not already end in `/`; in particular `.`
segments, `..` segments and duplicated separators of an absolute input
all survive into the result. -/
theorem absolute_inputs_resolved_verbatim (st : State) (p : String)
    (h : startsWithSlash p = true) :
    st.abspath p =
      if kindC st.store (pcomps p) = some NKind.grp ∧ ¬ endsWithSlash p = true
      then p ++ "/" else p := by
  unfold State.abspath
  rw [abspath_eq_kind, preAbs_of_startsWithSlash _ _ h]
  by_cases hk : kindC st.store (pcomps p) = some NKind.grp
  · rw [if_pos hk]
    by_cases he : endsWithSlash p = true
    · rw [if_pos he, if_neg (by simp [hk, he])]
    · rw [if_neg he, if_pos ⟨hk, he⟩]
  · rw [if_neg hk, if_neg (by simp [hk])]

/-- Witness for C10: the absolute input `/a/..//b/.` contains a `..`
segment, a duplicated separator and a `.` segment, resolves to nothing
in the store, and is returned entirely unchanged. -/
theorem absolute_inputs_resolved_verbatim_witness :
    demoState.abspath "/a/..//b/." = "/a/..//b/." := by
  rw [absolute_inputs_resolved_verbatim demoState "/a/..//b/." (by decide)]
  decide

/-- C4 counterexample: the user-typed absolute input `/a/b/` carries a
trailing slash; it resolves to the dataset `/a/b` of the store (HDF5
accepts the trailing slash), yet the string returned by `abspath` is
`/a/b/`, which ends with `/`.  This contradicts the claim that the
returned string never ends with `/` for a dataset location even when
the input itself carries a trailing slash. -/
theorem dataset_trailing_slash_counterexample :
    demoState.abspath "/a/b/" = "/a/b/" ∧
    endsWithSlash (demoState.abspath "/a/b/") = true ∧
    kindC demoState.store (pcomps (demoState.abspath "/a/b/")) = some NKind.dst := by
  constructor
  · rfl
  · constructor
    · rfl
    · rfl

/-- C4 amended.  If the resolved string denotes an existing group it
always ends with `/`.  If it denotes an existing dataset, resolution
never *appends* a slash: the result ends with `/` only when the input
itself was absolute and already ended with `/` (relative inputs are
normalized, which strips trailing slashes). -/
theorem trailing_slash_group_marker (st : State) (p : String) :
    (kindC st.store (pcomps (st.abspath p)) = some NKind.grp →
      endsWithSlash (st.abspath p) = true) ∧
    (kindC st.store (pcomps (st.abspath p)) = some NKind.dst →
      endsWithSlash (st.abspath p) = true →
      startsWithSlash p = true ∧ endsWithSlash p = true) := by
  unfold State.abspath
  rw [pcomps_abspath]
  constructor
  · intro hk
    rw [abspath_eq_kind, if_pos hk]
    by_cases he : endsWithSlash (preAbs st.cwd p) = true
    · rw [if_pos he]; exact he
    · rw [if_neg he]; exact endsWithSlash_append_slash _
  · intro hk he
    have hnotg : ¬ kindC st.store (pcomps (preAbs st.cwd p)) = some NKind.grp := by
      rw [hk]; intro hcon; cases hcon
    rw [abspath_eq_kind, if_neg hnotg] at he
    by_cases hs : startsWithSlash p = true
    · refine ⟨hs, ?_⟩
      rw [preAbs_of_startsWithSlash _ _ hs] at he
      exact he
    · exfalso
      simp only [Bool.not_eq_true] at hs
      have hpre : preAbs st.cwd p = normpath (posixJoin (nameOf st.cwd) p) := by
        unfold preAbs
        rw [hs]
        simp
      rw [hpre] at he hnotg
      have hroot := normpath_absolute_of_endsWithSlash _
        (posixJoin_startsWithSlash _ _ (nameOf_startsWithSlash st.cwd)) he
      rcases hroot with h1 | h1 <;>
        · rw [h1] at hnotg
          exact hnotg rfl

/-- Witness for C4 amended: in the example store, `/a/c` is a group and
its resolution `abspath "/a/c" = "/a/c/"` ends with a slash. -/
theorem trailing_slash_group_marker_witness :
    endsWithSlash (demoState.abspath "/a/c") = true :=
  (trailing_slash_group_marker demoState "/a/c").1 (by decide)

/-! ### Structural lemmas about the store operations -/

/-- Relation `isInit q p`: the component path `q` is an initial segment
of `p`, i.e. the node at `p` lies in the subtree rooted at `q`. -/
def isInit : List String → List String → Bool
  | [], _ => true
  | _ :: _, [] => false
  | a :: q, b :: p => a = b && isInit q p

theorem find?_replaceChild_ne (cs : Store) (name : String) (v : Node) (b : String)
    (h : ¬ b = name) :
    (replaceChild cs name v).find? (fun e => e.1 = b) = cs.find? (fun e => e.1 = b) := by
  induction cs with
  | nil => rfl
  | cons hd tl ih =>
    unfold replaceChild at ih ⊢
    rw [List.map_cons]
    by_cases hhd : hd.1 = name
    · rw [if_pos hhd]
      rw [List.find?_cons_of_neg _ (by simp only [decide_eq_true_eq]; exact fun hc => h hc.symm)]
      rw [List.find?_cons_of_neg _ (by
        simp only [decide_eq_true_eq]
        rw [hhd]
        exact fun hc => h hc.symm)]
      exact ih
    · rw [if_neg hhd]
      by_cases hb : hd.1 = b
      · rw [List.find?_cons_of_pos _ (by simp [hb]), List.find?_cons_of_pos _ (by simp [hb])]
      · rw [List.find?_cons_of_neg _ (by simp [hb]), List.find?_cons_of_neg _ (by simp [hb])]
        exact ih

theorem find?_replaceChild_eq (cs : Store) (name : String) (v : Node) :
    (replaceChild cs name v).find? (fun e => e.1 = name) =
      (cs.find? (fun e => e.1 = name)).map (fun _ => (name, v)) := by
  induction cs with
  | nil => rfl
  | cons hd tl ih =>
    unfold replaceChild at ih ⊢
    rw [List.map_cons]
    by_cases hhd : hd.1 = name
    · rw [if_pos hhd]
      rw [List.find?_cons_of_pos _ (by simp), List.find?_cons_of_pos _ (by simp [hhd])]
      rfl
    · rw [if_neg hhd]
      rw [List.find?_cons_of_neg _ (by simp [hhd]), List.find?_cons_of_neg _ (by simp [hhd])]
      exact ih

theorem find?_filterOut_ne (cs : Store) (name : String) (b : String) (h : ¬ b = name) :
    (cs.filter (fun e => ¬ e.1 = name)).find? (fun e => e.1 = b) =
      cs.find? (fun e => e.1 = b) := by
  induction cs with
  | nil => rfl
  | cons hd tl ih =>
    by_cases hhd : hd.1 = name
    · rw [List.filter_cons_of_neg (by simp [hhd])]
      rw [List.find?_cons_of_neg _ (by
        simp only [decide_eq_true_eq]
        rw [hhd]
        exact fun hc => h hc.symm)]
      exact ih
    · rw [List.filter_cons_of_pos (by simp [hhd])]
      by_cases hb : hd.1 = b
      · rw [List.find?_cons_of_pos _ (by simp [hb]), List.find?_cons_of_pos _ (by simp [hb])]
      · rw [List.find?_cons_of_neg _ (by simp [hb]), List.find?_cons_of_neg _ (by simp [hb])]
        exact ih

theorem find?_filterOut_eq (cs : Store) (name : String) :
    (cs.filter (fun e => ¬ e.1 = name)).find? (fun e => e.1 = name) = none := by
  induction cs with
  | nil => rfl
  | cons hd tl ih =>
    by_cases hhd : hd.1 = name
    · rw [List.filter_cons_of_neg (by simp [hhd])]
      exact ih
    · rw [List.filter_cons_of_pos (by simp [hhd])]
      rw [List.find?_cons_of_neg _ (by simp [hhd])]
      exact ih

theorem find?_append_left {cs : Store} {e : (String × Node) → Bool} {x : String × Node}
    (h : cs.find? e = some x) (tl : Store) : (cs ++ tl).find? e = some x := by
  rw [List.find?_append, h]
  rfl

theorem find?_append_right_ne (cs : Store) (name b : String) (v : Node) (h : ¬ b = name) :
    (cs ++ [(name, v)]).find? (fun e => e.1 = b) = cs.find? (fun e => e.1 = b) := by
  rw [List.find?_append]
  cases hf : cs.find? (fun e => e.1 = b) with
  | some x => rfl
  | none =>
    rw [Option.none_or]
    rw [List.find?_cons_of_neg _ (by simp only [decide_eq_true_eq]; exact fun hc => h hc.symm)]
    rfl

/-- Existence at a path implies existence at every initial segment of
that path. -/
theorem findAt_isSome_of_isInit (q : List String) :
    ∀ (p : List String) (n : Node), isInit q p = true →
      (n.findAt p).isSome = true → (n.findAt q).isSome = true := by
  induction q with
  | nil => intro p n _ _; cases n <;> rfl
  | cons a q' ih =>
    intro p n hq hp
    cases p with
    | nil => simp [isInit] at hq
    | cons b p' =>
      simp only [isInit, Bool.and_eq_true, decide_eq_true_eq] at hq
      obtain ⟨rfl, hq'⟩ := hq
      cases n with
      | dataset d sh x => simp [Node.findAt] at hp
      | group cs =>
        unfold Node.findAt at hp ⊢
        cases hf : cs.find? (fun e => e.1 = a) with
        | none => rw [hf] at hp; simp at hp
        | some pr =>
          rw [hf] at hp
          exact ih p' pr.2 hq' hp

theorem findC_isSome_of_isInit {q p : List String} {cs : Store}
    (hq : isInit q p = true) (hp : (findC cs p).isSome = true) :
    (findC cs q).isSome = true :=
  findAt_isSome_of_isInit q p (Node.group cs) hq hp

theorem insertC_nil (cs : Store) (v : Node) : insertC cs [] v = none := rfl

theorem insertC_single (cs : Store) (name : String) (v : Node) :
    insertC cs [name] v =
      if (cs.find? (fun e => e.1 = name)).isSome then none
      else some (cs ++ [(name, v)]) := rfl

theorem insertC_cons₂ (cs : Store) (name r2 : String) (rest2 : List String) (v : Node) :
    insertC cs (name :: r2 :: rest2) v =
      match cs.find? (fun e => e.1 = name) with
      | some (_, .group cs2) =>
        (insertC cs2 (r2 :: rest2) v).map (fun cs2' => replaceChild cs name (.group cs2'))
      | some (_, .dataset ..) => none
      | none =>
        (insertC [] (r2 :: rest2) v).map (fun cs2' => cs ++ [(name, .group cs2')]) := rfl

theorem deleteC_nil (cs : Store) : deleteC cs [] = none := rfl

theorem deleteC_single (cs : Store) (name : String) :
    deleteC cs [name] =
      if (cs.find? (fun e => e.1 = name)).isSome then
        some (cs.filter (fun e => ¬ e.1 = name))
      else none := rfl

theorem deleteC_cons₂ (cs : Store) (name r2 : String) (rest2 : List String) :
    deleteC cs (name :: r2 :: rest2) =
      match cs.find? (fun e => e.1 = name) with
      | some (_, .group cs2) =>
        (deleteC cs2 (r2 :: rest2)).map (fun cs2' => replaceChild cs name (.group cs2'))
      | _ => none := rfl

/-- A successful insertion happens at a previously nonexistent path. -/
theorem insertC_target_new (q : List String) :
    ∀ (cs cs' : Store) (v : Node), insertC cs q v = some cs' → findC cs q = none := by
  induction q with
  | nil => intro cs cs' v h; rw [insertC_nil] at h; cases h
  | cons name rest ih =>
    intro cs cs' v h
    cases rest with
    | nil =>
      rw [insertC_single] at h
      cases hg : cs.find? (fun e => e.1 = name) with
      | some x => rw [hg] at h; simp at h
      | none =>
        unfold findC Node.findAt
        rw [hg]
    | cons r2 rest2 =>
      rw [insertC_cons₂] at h
      cases hf : cs.find? (fun e => e.1 = name) with
      | some pr =>
        obtain ⟨nm, nd⟩ := pr
        rw [hf] at h
        cases nd with
        | dataset d sh x => dsimp only at h; cases h
        | group cs2 =>
          dsimp only at h
          cases hins : insertC cs2 (r2 :: rest2) v with
          | none => rw [hins] at h; simp at h
          | some cs2' =>
            unfold findC Node.findAt
            rw [hf]
            exact ih cs2 cs2' v hins
      | none =>
        unfold findC Node.findAt
        rw [hf]

/-- After deleting at `q`, nothing is left at `q` or below it. -/
theorem deleteC_gone (q : List String) :
    ∀ (p : List String) (cs cs' : Store), deleteC cs q = some cs' →
      isInit q p = true → findC cs' p = none := by
  induction q with
  | nil => intro p cs cs' h _; rw [deleteC_nil] at h; cases h
  | cons name rest ih =>
    intro p cs cs' h hq
    cases p with
    | nil => cases rest <;> simp [isInit] at hq
    | cons b p' =>
      cases rest with
      | nil =>
        simp only [isInit, Bool.and_eq_true, decide_eq_true_eq] at hq
        obtain ⟨rfl, _⟩ := hq
        rw [deleteC_single] at h
        cases hg : cs.find? (fun e => e.1 = name) with
        | none => rw [hg] at h; simp at h
        | some x =>
          rw [hg] at h
          simp only [Option.isSome_some, if_true, Option.some.injEq] at h
          subst h
          unfold findC Node.findAt
          rw [find?_filterOut_eq]
      | cons r2 rest2 =>
        simp only [isInit, Bool.and_eq_true, decide_eq_true_eq] at hq
        obtain ⟨rfl, hq'⟩ := hq
        rw [deleteC_cons₂] at h
        cases hf : cs.find? (fun e => e.1 = name) with
        | none => rw [hf] at h; dsimp only at h; cases h
        | some pr =>
          obtain ⟨nm, nd⟩ := pr
          rw [hf] at h
          cases nd with
          | dataset d sh x => dsimp only at h; cases h
          | group cs2 =>
            dsimp only at h
            cases hdel : deleteC cs2 (r2 :: rest2) with
            | none => rw [hdel] at h; simp at h
            | some cs2' =>
              rw [hdel] at h
              simp only [Option.map_some', Option.some.injEq] at h
              subst h
              unfold findC Node.findAt
              rw [find?_replaceChild_eq, hf]
              exact ih p' cs2 cs2' hdel hq'

/-- Deleting at `q` does not change the kind of any path outside the
subtree of `q`. -/
theorem deleteC_kind (q : List String) :
    ∀ (p : List String) (cs cs' : Store), deleteC cs q = some cs' →
      isInit q p = false → kindC cs' p = kindC cs p := by
  induction q with
  | nil => intro p cs cs' h _; rw [deleteC_nil] at h; cases h
  | cons name rest ih =>
    intro p cs cs' h hq
    cases rest with
    | nil =>
      rw [deleteC_single] at h
      cases hg : cs.find? (fun e => e.1 = name) with
      | none => rw [hg] at h; simp at h
      | some x =>
        rw [hg] at h
        simp only [Option.isSome_some, if_true, Option.some.injEq] at h
        subst h
        cases p with
        | nil => rfl
        | cons b p' =>
          have hb : ¬ b = name := by
            intro hc
            subst hc
            simp [isInit] at hq
          unfold kindC findC Node.findAt
          rw [find?_filterOut_ne cs name b hb]
    | cons r2 rest2 =>
      rw [deleteC_cons₂] at h
      cases hf : cs.find? (fun e => e.1 = name) with
      | none => rw [hf] at h; dsimp only at h; cases h
      | some pr =>
        obtain ⟨nm, nd⟩ := pr
        rw [hf] at h
        cases nd with
        | dataset d sh x => dsimp only at h; cases h
        | group cs2 =>
          dsimp only at h
          cases hdel : deleteC cs2 (r2 :: rest2) with
          | none => rw [hdel] at h; simp at h
          | some cs2' =>
            rw [hdel] at h
            simp only [Option.map_some', Option.some.injEq] at h
            subst h
            cases p with
            | nil => rfl
            | cons b p' =>
              by_cases hb : b = name
              · subst hb
                have hq2 : isInit (r2 :: rest2) p' = false := by simpa [isInit] using hq
                unfold kindC findC Node.findAt
                rw [find?_replaceChild_eq, hf]
                exact ih p' cs2 cs2' hdel hq2
              · unfold kindC findC Node.findAt
                rw [find?_replaceChild_ne cs name _ b hb]

/-- Inserting at `q` preserves the kind of any existing path outside the
subtree of `q` (paths inside the created chain may spring into
existence, but an already-existing kind never changes). -/
theorem insertC_kind (q : List String) :
    ∀ (p : List String) (cs cs' : Store) (v : Node) (k : NKind),
      insertC cs q v = some cs' → isInit q p = false →
      kindC cs p = some k → kindC cs' p = some k := by
  induction q with
  | nil => intro p cs cs' v k h _ _; rw [insertC_nil] at h; cases h
  | cons name rest ih =>
    intro p cs cs' v k h hq hk
    cases rest with
    | nil =>
      rw [insertC_single] at h
      cases hg : cs.find? (fun e => e.1 = name) with
      | some x => rw [hg] at h; simp at h
      | none =>
        rw [hg] at h
        simp only [Option.isSome_none, Bool.false_eq_true, if_false, Option.some.injEq] at h
        subst h
        cases p with
        | nil => exact hk
        | cons b p' =>
          have hb : ¬ b = name := by
            intro hc
            subst hc
            simp [isInit] at hq
          unfold kindC findC Node.findAt at hk ⊢
          rw [find?_append_right_ne cs name b v hb]
          exact hk
    | cons r2 rest2 =>
      rw [insertC_cons₂] at h
      cases hf : cs.find? (fun e => e.1 = name) with
      | some pr =>
        obtain ⟨nm, nd⟩ := pr
        rw [hf] at h
        cases nd with
        | dataset d sh x => dsimp only at h; cases h
        | group cs2 =>
          dsimp only at h
          cases hins : insertC cs2 (r2 :: rest2) v with
          | none => rw [hins] at h; simp at h
          | some cs2' =>
            rw [hins] at h
            simp only [Option.map_some', Option.some.injEq] at h
            subst h
            cases p with
            | nil => exact hk
            | cons b p' =>
              by_cases hb : b = name
              · subst hb
                have hq2 : isInit (r2 :: rest2) p' = false := by simpa [isInit] using hq
                unfold kindC findC Node.findAt at hk ⊢
                rw [find?_replaceChild_eq, hf]
                rw [hf] at hk
                exact ih p' cs2 cs2' v k hins hq2 hk
              · unfold kindC findC Node.findAt at hk ⊢
                rw [find?_replaceChild_ne cs name _ b hb]
                exact hk
      | none =>
        rw [hf] at h
        dsimp only at h
        cases hins : insertC [] (r2 :: rest2) v with
        | none => rw [hins] at h; simp at h
        | some cs2' =>
          rw [hins] at h
          simp only [Option.map_some', Option.some.injEq] at h
          subst h
          cases p with
          | nil => exact hk
          | cons b p' =>
            by_cases hb : b = name
            · subst hb
              unfold kindC findC Node.findAt at hk
              rw [hf] at hk
              cases hk
            · unfold kindC findC Node.findAt at hk ⊢
              rw [find?_append_right_ne cs name b _ hb]
              exact hk

/-! ### The `mv` = `cp` then `rm` equivalence (C5) -/

theorem kindC_of_findC {cs : Store} {p : List String} {v : Node} (h : findC cs p = some v) :
    kindC cs p = some v.tag := by
  unfold kindC
  rw [h]
  rfl

theorem findC_isSome_of_kindC {cs : Store} {p : List String} {k : NKind}
    (h : kindC cs p = some k) : (findC cs p).isSome = true := by
  unfold kindC at h
  cases hf : findC cs p with
  | none => rw [hf] at h; cases h
  | some v => rfl

theorem runSeq_single (c : Cmd) (st : State) : (runSeq [c] st).1 = (runCmd c st).st := by
  simp only [runSeq]
  cases h : (runCmd c st).exc <;> simp [h, runSeq]

theorem runSeq_pair (c1 c2 : Cmd) (st : State) :
    (runSeq [c1, c2] st).1 =
      (match (runCmd c1 st).exc with
       | some _ => (runCmd c1 st).st
       | none => (runCmd c2 (runCmd c1 st).st).st) := by
  simp only [runSeq]
  cases h : (runCmd c1 st).exc with
  | some e => simp [h]
  | none =>
    simp only [h]
    exact runSeq_single c2 (runCmd c1 st).st

/-- The moving step is the copying step followed by deletion of the
source (both steps run on the same initial store, where the source
resolves to the same string). -/
theorem copyMoveStep_mv_eq_cp_del (dest : String) (cwd : List String) (a : String)
    (s : Store) :
    copyMoveStep true dest cwd a s =
      (match copyMoveStep false dest cwd a s with
       | .missing => .missing
       | .fail s' e => .fail s' e
       | .ok s2 =>
         match deleteC s2 (pcomps (abspathC s cwd a)) with
         | some s3 => .ok s3
         | none => .fail s2 .h5Error) := by
  unfold copyMoveStep
  by_cases hS : (findC s (pcomps (abspathC s cwd a))).isSome = true
  · rw [if_pos hS, if_pos hS]
    cases hDel : (if (findC s (pcomps (finalDest s dest (abspathC s cwd a)))).isSome then
        deleteC s (pcomps (finalDest s dest (abspathC s cwd a)))
      else some s) with
    | none => rfl
    | some s1 =>
      dsimp only
      cases hCopy : findC s1 (pcomps (abspathC s cwd a)) with
      | none => rfl
      | some v =>
        dsimp only
        cases hIns : insertC s1 (pcomps (finalDest s dest (abspathC s cwd a))) v with
        | none => rfl
        | some s2 =>
          simp
  · rw [if_neg hS, if_neg hS]

/-- If the copying step succeeded, the source argument still resolves to
the same string afterwards and still denotes an object of the same kind
(the step only deleted the final destination, which cannot have been
above or at the source, and inserted the copied subtree). -/
theorem copyMoveStep_ok_pres (dest : String) (cwd : List String) (a : String)
    (s s2 : Store) (h : copyMoveStep false dest cwd a s = .ok s2) :
    abspathC s2 cwd a = abspathC s cwd a ∧
    (findC s2 (pcomps (abspathC s cwd a))).isSome = true := by
  unfold copyMoveStep at h
  by_cases hS : (findC s (pcomps (abspathC s cwd a))).isSome = true
  · rw [if_pos hS] at h
    set fdest := finalDest s dest (abspathC s cwd a) with hfd
    have key : ∀ s1 : Store,
        (isInit (pcomps fdest) (pcomps (abspathC s cwd a)) = true →
          findC s1 (pcomps (abspathC s cwd a)) = none) →
        (isInit (pcomps fdest) (pcomps (abspathC s cwd a)) = false →
          kindC s1 (pcomps (abspathC s cwd a)) = kindC s (pcomps (abspathC s cwd a))) →
        (match findC s1 (pcomps (abspathC s cwd a)) with
         | none => StepOut.fail s1 .keyError
         | some v =>
           match insertC s1 (pcomps fdest) v with
           | none => StepOut.fail s1 .h5Error
           | some s2 => StepOut.ok s2) = .ok s2 →
        abspathC s2 cwd a = abspathC s cwd a ∧
        (findC s2 (pcomps (abspathC s cwd a))).isSome = true := by
      intro s1 hGone hKind hh
      cases hCopy : findC s1 (pcomps (abspathC s cwd a)) with
      | none => rw [hCopy] at hh; cases hh
      | some v =>
        rw [hCopy] at hh
        dsimp only at hh
        have hni : isInit (pcomps fdest) (pcomps (abspathC s cwd a)) = false := by
          cases hi : isInit (pcomps fdest) (pcomps (abspathC s cwd a)) with
          | false => rfl
          | true => rw [hGone hi] at hCopy; cases hCopy
        have hk1 : kindC s1 (pcomps (abspathC s cwd a)) = some v.tag := kindC_of_findC hCopy
        cases hIns : insertC s1 (pcomps fdest) v with
        | none => rw [hIns] at hh; cases hh
        | some s2' =>
          rw [hIns] at hh
          cases hh
          have hk2 : kindC s2 (pcomps (abspathC s cwd a)) = some v.tag :=
            insertC_kind _ _ _ _ _ _ hIns hni hk1
          constructor
          · apply abspath_store_congr
            rw [← pcomps_abspath s cwd a]
            rw [hk2, ← hk1]
            exact hKind hni
          · exact findC_isSome_of_kindC hk2
    by_cases hG : (findC s (pcomps fdest)).isSome = true
    · rw [if_pos hG] at h
      cases hDel : deleteC s (pcomps fdest) with
      | none => rw [hDel] at h; cases h
      | some s1 =>
        rw [hDel] at h
        exact key s1 (fun hi => deleteC_gone _ _ _ _ hDel hi)
          (fun hi => deleteC_kind _ _ _ _ hDel hi) h
    · rw [if_neg hG] at h
      exact key s (fun hi => absurd (findC_isSome_of_isInit hi hS) (by simpa using hG))
        (fun _ => rfl) h
  · rw [if_neg hS] at h
    cases h

/-- A step reports a missing source exactly when the resolved source is
not in the store. -/
theorem copyMoveStep_missing (delSrc : Bool) (dest : String) (cwd : List String)
    (a : String) (s : Store) (h : copyMoveStep delSrc dest cwd a s = .missing) :
    (findC s (pcomps (abspathC s cwd a))).isSome = false := by
  unfold copyMoveStep at h
  by_cases hS : (findC s (pcomps (abspathC s cwd a))).isSome = true
  · rw [if_pos hS] at h
    exfalso
    cases hDel : (if (findC s (pcomps (finalDest s dest (abspathC s cwd a)))).isSome then
        deleteC s (pcomps (finalDest s dest (abspathC s cwd a)))
      else some s) with
    | none => rw [hDel] at h; cases h
    | some s1 =>
      rw [hDel] at h
      dsimp only at h
      cases hC : findC s1 (pcomps (abspathC s cwd a)) with
      | none => rw [hC] at h; cases h
      | some v =>
        rw [hC] at h
        dsimp only at h
        cases hI : insertC s1 (pcomps (finalDest s dest (abspathC s cwd a))) v with
        | none => rw [hI] at h; cases h
        | some s2 =>
          rw [hI] at h
          dsimp only at h
          cases delSrc with
          | false => simp at h
          | true =>
            simp only [if_true] at h
            cases hD : deleteC s2 (pcomps (abspathC s cwd a)) with
            | some s3 => rw [hD] at h; simp at h
            | none => rw [hD] at h; simp at h
  · simpa using hS

/-- Single-source instance of the loop equivalence: the store after the
moving loop on one source equals the store after the copying loop,
followed (when no exception escaped the copy) by the `rm` loop on the
same argument. -/
theorem loop_single_mv_cp (vM vC fa : String) (cwd : List String) (a dest : String)
    (s : Store) :
    (copyMoveLoop true vM fa dest cwd [a] s).1 =
      (match (copyMoveLoop false vC fa dest cwd [a] s).2.2 with
       | some _ => (copyMoveLoop false vC fa dest cwd [a] s).1
       | none => (rmLoop cwd [a] (copyMoveLoop false vC fa dest cwd [a] s).1).1) := by
  have hmv := copyMoveStep_mv_eq_cp_del dest cwd a s
  cases hstep : copyMoveStep false dest cwd a s with
  | missing =>
    rw [hstep] at hmv
    dsimp only at hmv
    have hmiss : (findC s (pcomps (abspathC s cwd a))).isSome = false :=
      copyMoveStep_missing false dest cwd a s hstep
    simp only [copyMoveLoop, hstep, hmv]
    simp [rmLoop, hmiss]
  | fail s' e =>
    rw [hstep] at hmv
    dsimp only at hmv
    simp only [copyMoveLoop, hstep, hmv]
  | ok s2 =>
    rw [hstep] at hmv
    dsimp only at hmv
    obtain ⟨habs, hfind⟩ := copyMoveStep_ok_pres dest cwd a s s2 hstep
    simp only [copyMoveLoop, hstep, hmv]
    cases hDs : deleteC s2 (pcomps (abspathC s cwd a)) with
    | some s3 => simp [rmLoop, habs, hfind, hDs, copyMoveLoop]
    | none => simp [rmLoop, habs, hfind, hDs]

/-- C5.  For every store and session, running `mv a b` yields the same
final tree contents as running `cp a b` followed by `rm a`: the move is
a deep copy of the source to the destination followed by deletion of
the source, not an atomic rename.  (The equivalence also covers the
failure paths: a missing source produces a diagnostic and no mutation on
both sides, and an h5py exception aborts both runs with identical
stores.) -/
theorem mv_equals_cp_then_rm (st : State) (a b : String) :
    (runSeq [Cmd.mv [a, b]] st).1.store = (runSeq [Cmd.cp [a, b], Cmd.rm [a]] st).1.store := by
  rw [runSeq_single, runSeq_pair]
  simp only [runCmd]
  by_cases hw : st.writable = true
  · simp only [mvRun, cpRun, rmRun, hw, if_true, List.length_cons, List.length_nil,
      List.head?, List.getLast?, List.dropLast, Option.getD]
    norm_num
    simp only [State.abspath]
    have key := loop_single_mv_cp "mv" "cp" a st.cwd a (abspathC st.store st.cwd b) st.store
    cases hE : (copyMoveLoop false "cp" a (abspathC st.store st.cwd b) st.cwd [a] st.store).2.2 with
    | some e => rw [hE] at key; simpa using key
    | none => rw [hE] at key; simpa using key
  · simp only [Bool.not_eq_true] at hw
    simp [mvRun, cpRun, rmRun, hw]

/-! ### Handler state facts -/

theorem attrsRun_state (args : List String) (st : State) : (attrsRun args st).st = st := by
  unfold attrsRun
  cases args with
  | nil => rfl
  | cons a rest =>
    dsimp only
    split <;> rfl

theorem catRun_state (args : List String) (st : State) : (catRun args st).st = st := by
  unfold catRun
  cases args with
  | nil => rfl
  | cons a rest =>
    dsimp only
    split <;> rfl

theorem lsRun_state (args : List String) (st : State) : (lsRun args st).st = st := by
  unfold lsRun
  dsimp only
  split
  · rfl
  · rfl
  · split <;> rfl

theorem pwdRun_state (args : List String) (st : State) : (pwdRun args st).st = st := rfl

theorem helpRun_state (args : List String) (st : State) : (helpRun args st).st = st := by
  unfold helpRun
  cases args with
  | nil => rfl
  | cons a rest =>
    dsimp only
    split <;> rfl

theorem mkdirRun_lastCwd (args : List String) (st : State) :
    (mkdirRun args st).st.lastCwd = st.lastCwd := by
  unfold mkdirRun
  split <;> rfl

theorem rmRun_lastCwd (args : List String) (st : State) :
    (rmRun args st).st.lastCwd = st.lastCwd := by
  unfold rmRun
  split <;> rfl

theorem cpRun_lastCwd (args : List String) (st : State) :
    (cpRun args st).st.lastCwd = st.lastCwd := by
  unfold cpRun
  split
  · split
    · rfl
    · dsimp only
      split <;> rfl
  · rfl

theorem mvRun_lastCwd (args : List String) (st : State) :
    (mvRun args st).st.lastCwd = st.lastCwd := by
  unfold mvRun
  split
  · split
    · split <;> rfl
    · dsimp only
      split <;> rfl
  · rfl

/-- Is the command a `cd`? -/
def isCdCmd : Cmd → Bool
  | .cd _ => true
  | _ => false

/-! ### C6: the 3+-argument destination pre-check -/

/-- C6.  When `cp` or `mv` is invoked on a writable session with three
or more arguments and the resolved destination is not an existing
group, the handler prints the target-is-not-a-group diagnostic naming
the last argument and aborts: the returned state is exactly the input
state (no source was processed, no mutation happened) and that
diagnostic is the entire output. -/
theorem multi_source_dest_precheck (st : State) (args : List String)
    (hw : st.writable = true) (hlen : 2 < args.length)
    (hd : destNotGroup st.store (st.abspath (args.getLast?.getD "")) = true) :
    runCmd (.cp args) st = ⟨st, [.targetNotGroup "cp" (args.getLast?.getD "")], none⟩ ∧
    runCmd (.mv args) st = ⟨st, [.targetNotGroup "mv" (args.getLast?.getD "")], none⟩ := by
  constructor
  · simp only [runCmd, cpRun, hw, if_true]
    rw [if_neg (by omega : ¬ args.length < 2)]
    rw [if_pos (by simp [hd, hlen])]
  · simp only [runCmd, mvRun, hw, if_true]
    rw [if_neg (by omega : ¬ args.length < 2)]
    rw [if_pos (by simp [hd, hlen])]

/-- Witness for C6: `cp /a/b /a/c /nope` on the example store aborts
with the target diagnostic and leaves the session untouched. -/
theorem multi_source_dest_precheck_witness :
    runCmd (.cp ["/a/b", "/a/c", "/nope"]) demoState =
      ⟨demoState, [.targetNotGroup "cp" "/nope"], none⟩ :=
  (multi_source_dest_precheck demoState ["/a/b", "/a/c", "/nope"] rfl (by decide) (by decide)).1

/-! ### C7: the `cd -` swap -/

/-- C7.  `cd -` swaps the current and previous groups, touches nothing
else, prints nothing, and never fails; applying it twice restores the
original current group; no command other than `cd` ever changes
`previous_location`; and a failed `cd` (target missing or not a group)
changes neither location. -/
theorem cd_dash_swap_properties :
    (∀ st : State, (runCmd (.cd ["-"]) st).st.cwd = st.lastCwd ∧
       (runCmd (.cd ["-"]) st).st.lastCwd = st.cwd ∧
       (runCmd (.cd ["-"]) st).st.store = st.store ∧
       (runCmd (.cd ["-"]) st).out = [] ∧ (runCmd (.cd ["-"]) st).exc = none) ∧
    (∀ st : State, (runCmd (.cd ["-"]) (runCmd (.cd ["-"]) st).st).st.cwd = st.cwd) ∧
    (∀ (c : Cmd) (st : State), isCdCmd c = false →
       (runCmd c st).st.lastCwd = st.lastCwd) ∧
    (∀ (args : List String) (st : State),
       ¬ joinSpace args = "-" →
       ¬ kindC st.store (pcomps (st.abspath (joinSpace args))) = some NKind.grp →
       (runCmd (.cd args) st).st = st) := by
  refine ⟨?_, ?_, ?_, ?_⟩
  · intro st
    simp [runCmd, cdRun, joinSpace]
  · intro st
    simp [runCmd, cdRun, joinSpace]
  · intro c st hc
    cases c with
    | attrs args => simp [runCmd, attrsRun_state]
    | cat args => simp [runCmd, catRun_state]
    | cd args => simp [isCdCmd] at hc
    | cp args => simp [runCmd, cpRun_lastCwd]
    | help args => simp [runCmd, helpRun_state]
    | ls args => simp [runCmd, lsRun_state]
    | mkdir args => simp [runCmd, mkdirRun_lastCwd]
    | mv args => simp [runCmd, mvRun_lastCwd]
    | pwd args => simp [runCmd, pwdRun_state]
    | rm args => simp [runCmd, rmRun_lastCwd]
  · intro args st hdash hkind
    simp only [runCmd, cdRun]
    rw [if_neg hdash]
    cases hf : findC st.store (pcomps (st.abspath (joinSpace args))) with
    | none => rfl
    | some n =>
      cases n with
      | group cs =>
        exfalso
        exact hkind (kindC_of_findC hf)
      | dataset d sh x => rfl

/-- Witness for C7: `pwd` is not `cd`, and indeed leaves
`previous_location` unchanged on the example session. -/
theorem cd_dash_swap_properties_witness :
    (runCmd (.pwd []) demoState).st.lastCwd = demoState.lastCwd :=
  cd_dash_swap_properties.2.2.1 (.pwd []) demoState rfl

/-! ### C9: which argument the source diagnostic names -/

/-- Every missing-source diagnostic emitted by the `cp`/`mv` loop names
the loop's fixed `firstArg` (which the handlers pass as `args[0]`),
regardless of which source failed. -/
theorem loop_noSuch_mem (d : Bool) (verb fa dest : String) (cwd : List String) :
    ∀ (srcs : List String) (s : Store) (v x : String),
      Diag.noSuchGroupOrDataset v x ∈ (copyMoveLoop d verb fa dest cwd srcs s).2.1 →
      v = verb ∧ x = fa := by
  intro srcs
  induction srcs with
  | nil => intro s v x h; simp [copyMoveLoop] at h
  | cons a rest ih =>
    intro s v x h
    simp only [copyMoveLoop] at h
    cases hstep : copyMoveStep d dest cwd a s with
    | missing =>
      rw [hstep] at h
      dsimp only at h
      rcases List.mem_cons.mp h with h1 | h2
      · injection h1 with hv hx
        exact ⟨hv, hx⟩
      · exact ih s v x h2
    | ok s' =>
      rw [hstep] at h
      dsimp only at h
      exact ih s' v x h
    | fail s' e =>
      rw [hstep] at h
      dsimp only at h
      simp at h

/-- C9 counterexample: `cp /a/b /oops /g` on the example store (where
`/a/b` exists, `/oops` does not, and `/g` is a group) copies `/a/b` and
then reports the missing second source with a diagnostic that names the
*first* argument `/a/b`, not the failing argument `/oops`. -/
theorem source_diag_counterexample :
    (runCmd (.cp ["/a/b", "/oops", "/g"]) demoState).out =
      [Diag.noSuchGroupOrDataset "cp" "/a/b"] ∧
    ("/a/b" : String) ≠ "/oops" := by
  constructor
  · decide
  · decide

/-- C9 amended.  Every `No such group or dataset` diagnostic emitted by
`cp` or `mv` carries the handler's verb and the *first* argument
`args[0]` of the invocation, regardless of which source was missing. -/
theorem source_diag_names_first_arg (st : State) (args : List String) (v x : String) :
    (Diag.noSuchGroupOrDataset v x ∈ (runCmd (.cp args) st).out →
      v = "cp" ∧ x = args.head?.getD "") ∧
    (Diag.noSuchGroupOrDataset v x ∈ (runCmd (.mv args) st).out →
      v = "mv" ∧ x = args.head?.getD "") := by
  constructor
  · intro h
    simp only [runCmd, cpRun] at h
    by_cases hw : st.writable = true
    · rw [if_pos hw] at h
      by_cases hlen : args.length < 2
      · rw [if_pos hlen] at h
        simp at h
      · rw [if_neg hlen] at h
        try dsimp only at h
        by_cases hd : (destNotGroup st.store (st.abspath (args.getLast?.getD "")) &&
            decide (2 < args.length)) = true
        · rw [if_pos hd] at h
          simp at h
        · rw [if_neg hd] at h
          try dsimp only at h
          exact loop_noSuch_mem false "cp" _ _ _ args.dropLast st.store v x h
    · rw [if_neg hw] at h
      simp at h
  · intro h
    simp only [runCmd, mvRun] at h
    by_cases hw : st.writable = true
    · rw [if_pos hw] at h
      by_cases hlen : args.length < 2
      · rw [if_pos hlen] at h
        cases args with
        | nil => simp at h
        | cons a rest => simp at h
      · rw [if_neg hlen] at h
        try dsimp only at h
        by_cases hd : (destNotGroup st.store (st.abspath (args.getLast?.getD "")) &&
            decide (2 < args.length)) = true
        · rw [if_pos hd] at h
          simp at h
        · rw [if_neg hd] at h
          try dsimp only at h
          exact loop_noSuch_mem true "mv" _ _ _ args.dropLast st.store v x h
    · rw [if_neg hw] at h
      simp at h

/-- Witness for C9 amended: in the counterexample run the diagnostic
indeed names the first argument. -/
theorem source_diag_names_first_arg_witness :
    ("cp" : String) = "cp" ∧ ("/a/b" : String) = ["/a/b", "/oops", "/g"].head?.getD "" :=
  (source_diag_names_first_arg demoState ["/a/b", "/oops", "/g"] "cp" "/a/b").1 (by decide)

/-! ### C8: the order of `ls` rows -/

/-- The name column of a successful `ls` listing, in print order. -/
def lsNames (args : List String) (st : State) : List String :=
  match (lsRun args st).out with
  | [.lsListing rows] => rows.map (fun r => r.2.2)
  | _ => []

/-- C8 counterexample: for `/a` holding dataset `b` and group `c`, the
printed order is `..`, `.`, `c`, `b` — the sort key is the *rendered*
cell (group names are wrapped in `<b><ansibrightblue>` markup, which
sorts before bare dataset names and reorders `..` before `.`), not the
display name, so the claimed order `.`, `..`, `b`, `c/` is wrong. -/
theorem ls_sort_counterexample :
    lsNames ["/a"] demoState = [wrapDir "..", wrapDir ".", wrapDir "c", "b"] ∧
    lsNames ["/a"] demoState ≠ [wrapDir ".", wrapDir "..", "b", wrapDir "c"] := by
  constructor
  · decide
  · decide

theorem lexLe_total : ∀ l m : List Char, lexLe l m = true ∨ lexLe m l = true := by
  intro l
  induction l with
  | nil => intro m; left; rfl
  | cons c cr ih =>
    intro m
    cases m with
    | nil => right; rfl
    | cons d dr =>
      by_cases h1 : c.toNat < d.toNat
      · left; simp [lexLe, h1]
      · by_cases h2 : d.toNat < c.toNat
        · right; simp [lexLe, h2]
        · rcases ih dr with h | h
          · left; simp [lexLe, h1, h2, h]
          · right; simp [lexLe, h1, h2, h]

theorem lexLe_trans : ∀ l m n : List Char,
    lexLe l m = true → lexLe m n = true → lexLe l n = true := by
  intro l
  induction l with
  | nil => intro m n _ _; rfl
  | cons c cr ih =>
    intro m n h1 h2
    cases m with
    | nil => simp [lexLe] at h1
    | cons d dr =>
      cases n with
      | nil => simp [lexLe] at h2
      | cons e er =>
        simp only [lexLe] at h1 h2 ⊢
        by_cases hcd : c.toNat < d.toNat
        · by_cases hde : d.toNat < e.toNat
          · rw [if_pos (Nat.lt_trans hcd hde)]
          · by_cases hed : e.toNat < d.toNat
            · rw [if_neg hde, if_pos hed] at h2; cases h2
            · rw [if_pos (by omega : c.toNat < e.toNat)]
        · by_cases hdc : d.toNat < c.toNat
          · rw [if_neg hcd, if_pos hdc] at h1; cases h1
          · by_cases hde : d.toNat < e.toNat
            · rw [if_pos (by omega : c.toNat < e.toNat)]
            · by_cases hed : e.toNat < d.toNat
              · rw [if_neg hde, if_pos hed] at h2; cases h2
              · rw [if_neg hcd, if_neg hdc] at h1
                rw [if_neg hde, if_neg hed] at h2
                rw [if_neg (by omega : ¬ c.toNat < e.toNat),
                  if_neg (by omega : ¬ e.toNat < c.toNat)]
                exact ih dr er h1 h2

/-- C8 amended.  The rows printed by a successful `ls` are exactly a
permutation of the two synthetic `.` and `..` rows plus one row per
child, sorted (stably) by the rendered name cell — the markup-wrapped
name for groups, the bare name for datasets — under Python's code-point
string order. -/
theorem ls_rows_sorted_by_rendered_name (st : State) (args : List String)
    (rows : List (String × String × String))
    (h : (lsRun args st).out = [.lsListing rows]) :
    rows.Pairwise (fun r1 r2 => strLe r1.2.2 r2.2.2 = true) ∧
    ∃ cs, findC st.store (pcomps (st.abspath (joinSpace args))) = some (.group cs) ∧
      rows.Perm (("group", "1", wrapDir ".") :: ("group", "1", wrapDir "..") :: cs.map lsRow) := by
  unfold lsRun at h
  dsimp only at h
  cases hf : findC st.store (pcomps (st.abspath (joinSpace args))) with
  | none => rw [hf] at h; simp at h
  | some n =>
    rw [hf] at h
    cases n with
    | dataset d sh x => simp at h
    | group cs =>
      dsimp only at h
      simp only [Option.isSome_some] at h
      rw [if_pos trivial] at h
      simp only [List.cons.injEq, Diag.lsListing.injEq, and_true] at h
      subst h
      haveI hT : IsTotal (String × String × String) (fun r1 r2 => strLe r1.2.2 r2.2.2 = true) :=
        ⟨fun a b => lexLe_total a.2.2.data b.2.2.data⟩
      haveI hTr : IsTrans (String × String × String) (fun r1 r2 => strLe r1.2.2 r2.2.2 = true) :=
        ⟨fun a b c h1 h2 => lexLe_trans a.2.2.data b.2.2.data c.2.2.data h1 h2⟩
      exact ⟨List.sorted_insertionSort _ _, cs, rfl, List.perm_insertionSort _ _⟩

/-- Witness for C8 amended: the concrete `ls /a` listing of the example
store is sorted by the rendered name cell. -/
theorem ls_rows_sorted_by_rendered_name_witness :
    ([("group", "1", wrapDir ".."), ("group", "1", wrapDir "."),
      ("group", "1", wrapDir "c"), ("float64", "(3,)", "b")] :
      List (String × String × String)).Pairwise (fun r1 r2 => strLe r1.2.2 r2.2.2 = true) :=
  (ls_rows_sorted_by_rendered_name demoState ["/a"] _ (by decide)).1

/-! ### C1: uncaught exceptions in `ls` and `mv` -/

/-- C1 evaluation of the two failing inputs.  `ls` on a path absent from
the store subscripts `state.f[path]` *before* its membership test, so it
raises `KeyError` instead of printing the (unreachable) `No such group`
diagnostic; `mv` with zero arguments interpolates `args[0]` into its
missing-operand message, raising `IndexError` before anything is
printed.  Both exceptions escape the handler and kill the interpreter
loop, contradicting the claim that user-level mistakes are always
reported as diagnostics. -/
theorem ls_mv_uncaught_exceptions :
    (runCmd (.ls ["/nope"]) demoState).exc = some PyErr.keyError ∧
    (runCmd (.ls ["/nope"]) demoState).out = [] ∧
    (runCmd (.mv []) demoState).exc = some PyErr.indexError ∧
    (runCmd (.mv []) demoState).out = [] := by
  refine ⟨?_, ?_, ?_, ?_⟩ <;> decide

/-! ### C2: the current-location invariant -/

/-- Both session locations denote existing groups in the store. -/
def locsOK (st : State) : Prop :=
  kindC st.store st.cwd = some NKind.grp ∧ kindC st.store st.lastCwd = some NKind.grp

/-- C2 counterexample: starting from the root of the example store,
`cd /a/c` followed by `rm /a/c` completes without error yet leaves
`current_location` at `/a/c`, which no longer exists in the store:
`rm` applied to the current group leaves the location dangling. -/
theorem rm_dangles_current_location :
    (runSeq [.cd ["/a/c"], .rm ["/a/c"]] demoState).2 = none ∧
    (runSeq [.cd ["/a/c"], .rm ["/a/c"]] demoState).1.cwd = ["a", "c"] ∧
    kindC (runSeq [.cd ["/a/c"], .rm ["/a/c"]] demoState).1.store ["a", "c"] = none := by
  refine ⟨?_, ?_, ?_⟩ <;> decide

/-- The `mkdir` loop preserves the kind of every existing path: group
creation only adds new links at previously nonexistent paths. -/
theorem mkdirLoop_kind_preserved (cwd : List String) :
    ∀ (argsL : List String) (s : Store) (p : List String),
      kindC s p = some NKind.grp → kindC (mkdirLoop cwd argsL s).1 p = some NKind.grp := by
  intro argsL
  induction argsL with
  | nil => intro s p h; simpa [mkdirLoop] using h
  | cons arg rest ih =>
    intro s p h
    simp only [mkdirLoop]
    by_cases hf : (findC s (pcomps (abspathC s cwd arg))).isSome = true
    · rw [if_pos hf]
      dsimp only
      exact ih s p h
    · rw [if_neg hf]
      cases hins : insertC s (pcomps (abspathC s cwd arg)) (.group []) with
      | some s2 =>
        have hni : isInit (pcomps (abspathC s cwd arg)) p = false := by
          cases hi : isInit (pcomps (abspathC s cwd arg)) p with
          | false => rfl
          | true =>
            exfalso
            have h1 := findC_isSome_of_isInit hi (findC_isSome_of_kindC h)
            rw [insertC_target_new _ _ _ _ hins] at h1
            cases h1
        exact ih s2 p (insertC_kind _ _ _ _ _ _ hins hni h)
      | none => exact h

/-- C2 amended.  The invariant that the current (and previous) location
denotes an existing group is preserved by every command that cannot
delete nodes: the read-only handlers, `cd` in all its branches, and
`mkdir`.  (`rm`, and the overwrite steps of `cp`/`mv`, can delete the
current group or an ancestor and then leave the location dangling, as
the counterexample shows.) -/
theorem safe_commands_preserve_location (st : State) (hOK : locsOK st) (args : List String) :
    locsOK (runCmd (.attrs args) st).st ∧ locsOK (runCmd (.cat args) st).st ∧
    locsOK (runCmd (.cd args) st).st ∧ locsOK (runCmd (.ls args) st).st ∧
    locsOK (runCmd (.pwd args) st).st ∧ locsOK (runCmd (.help args) st).st ∧
    locsOK (runCmd (.mkdir args) st).st := by
  refine ⟨?_, ?_, ?_, ?_, ?_, ?_, ?_⟩
  · rw [runCmd, attrsRun_state]; exact hOK
  · rw [runCmd, catRun_state]; exact hOK
  · simp only [runCmd, cdRun]
    by_cases hdash : joinSpace args = "-"
    · rw [if_pos hdash]
      exact ⟨hOK.2, hOK.1⟩
    · rw [if_neg hdash]
      cases hf : findC st.store (pcomps (st.abspath (joinSpace args))) with
      | none => exact hOK
      | some n =>
        cases n with
        | group cs => exact ⟨kindC_of_findC hf, hOK.1⟩
        | dataset d sh x => exact hOK
  · rw [runCmd, lsRun_state]; exact hOK
  · rw [runCmd, pwdRun_state]; exact hOK
  · rw [runCmd, helpRun_state]; exact hOK
  · simp only [runCmd, mkdirRun]
    by_cases hw : st.writable = true
    · rw [if_pos hw]
      exact ⟨mkdirLoop_kind_preserved st.cwd args st.store st.cwd hOK.1,
        mkdirLoop_kind_preserved st.cwd args st.store st.lastCwd hOK.2⟩
    · rw [if_neg hw]
      exact hOK

/-- Witness for C2 amended: from the example session (both locations at
the root group), `cd /a` preserves the invariant. -/
theorem safe_commands_preserve_location_witness :
    locsOK (runCmd (.cd ["/a"]) demoState).st :=
  (safe_commands_preserve_location demoState ⟨rfl, rfl⟩ ["/a"]).2.2.1

end H5sh
